import Mathlib

/-!
Verification of the debiman manual-page URL resolver and extractor.

Strings are modelled as lists of characters so that every operation is a
structurally recursive, executable function that the kernel can evaluate.
The extractor helpers soElim and findClosestFile are translated from the
repository source; the redirect resolver itself is not part of the given
sources (only its test file is), so it is modelled from the specification,
as marked on each such definition.
-/

set_option maxHeartbeats 1000000

abbrev Str := List Char

/-- Character-level less-than on code points, used for lexicographic order. -/
def chLt (a b : Char) : Bool := a.toNat < b.toNat

/-- Lexicographic less-than on strings, character by character. -/
def strLt : Str → Str → Bool
  | [], [] => false
  | [], _ :: _ => true
  | _ :: _, [] => false
  | a :: as, b :: bs => if chLt a b then true else if chLt b a then false else strLt as bs

/-- Tests whether pat is a leading segment of s. -/
def hasPfx : Str → Str → Bool
  | [], _ => true
  | _ :: _, [] => false
  | p :: ps, c :: cs => p == c && hasPfx ps cs

/-- Go strings.TrimPrefix: drops pat from the front of s when present, else returns s. -/
def dropPfxStr (pat s : Str) : Str := if hasPfx pat s then s.drop pat.length else s

/-- Whitespace test matching the characters trimmed by Go strings.TrimSpace on manpage lines. -/
def isSpaceCh (c : Char) : Bool := c == ' ' || c == '\t' || c == '\n' || c == '\r'

/-- Trims whitespace from both ends of a string. -/
def trimStr (s : Str) : Str :=
  ((s.dropWhile isSpaceCh).reverse.dropWhile isSpaceCh).reverse

/-- Splits a string on a separator character; mirrors Go strings.Split. -/
def splitChAux (sep : Char) : Str → Str → List Str
  | [], acc => [acc.reverse]
  | c :: cs, acc => if c == sep then acc.reverse :: splitChAux sep cs [] else splitChAux sep cs (c :: acc)

def splitCh (sep : Char) (s : Str) : List Str := splitChAux sep s []

/-- Association-list lookup keyed by strings. -/
def lookupStr {α : Type} : List (Str × α) → Str → Option α
  | [], _ => none
  | (k, v) :: rest, key => if k == key then some v else lookupStr rest key

/-- Content-index record: the fields of contentEntry that the extractor helpers read. -/
structure contentEntry where
  suite : Str
  binarypkg : Str
deriving DecidableEq

/-- Package being extracted: the fields of pkgEntry that findClosestFile reads. -/
structure pkgMeta where
  suite : Str
  binarypkg : Str
deriving DecidableEq

/-- Ordering used by sort.Sort(contentByBinarypkg(c)) in the source. -/
def contentLe (a b : contentEntry) : Prop := strLt b.binarypkg a.binarypkg = false

instance : DecidableRel contentLe := fun _ _ => instDecidableEqBool _ _

/-- The literal path /usr/share/man/ that the extractor strips from content keys. -/
def usrShareMan : Str := "/usr/share/man/".data

def gzSuffix : Str := ".gz".data

/-- Serving-path construction for a resolved content entry: the source calls
manpage.FromManPath on the trimmed path with the binarypkg and suite of the
chosen entry and appends .gz on success, yielding the empty string on a parse
error. FromManPath is outside the given sources, so it is a parameter here. -/
def servingOf (fromManPath : Str → Str → Str → Option Str)
    (key bp su : Str) : Str :=
  match fromManPath key bp su with
  | some sp => sp ++ gzSuffix
  | none => []

/-- Translation of findClosestFile from the extractor source. The counting loop
over candidates in the same binary package (which breaks once the count passes
one) reduces the candidate list to the unique match exactly when one match
exists; it is rendered here by filtering. sort.Sort on contentByBinarypkg is
rendered as an insertion sort under the same ordering. -/
def findClosestFile (fromManPath : Str → Str → Str → Option Str)
    (p : pkgMeta) (name : Str) (contentByPath : List (Str × List contentEntry)) : Str :=
  let key := dropPfxStr usrShareMan name
  match lookupStr contentByPath key with
  | none => []
  | some c =>
      let c := c.filter (fun e => e.suite == p.suite)
      let c :=
        if 1 < c.length then
          let same := c.filter (fun e => e.binarypkg == p.binarypkg)
          let c := match same with
            | [e] => [e]
            | _ => c
          List.insertionSort contentLe c
        else c
      match c with
      | [] => []
      | e :: _ => servingOf fromManPath key e.binarypkg e.suite

/-- Translation of soElim from the extractor source: lines are consumed in order;
a line that does not start with .so is copied verbatim; a .so reference is
resolved through findFile (abstracted here as a parameter returning the
resolved text, a ref string and a success flag), rewritten on success and
dropped on failure; non-empty ref strings of resolved lines are collected. -/
def soElim (findFile : Str → Str × Str × Bool) : List Str → List Str × List Str
  | [] => ([], [])
  | line :: rest =>
      let (out, refs) := soElim findFile rest
      if !(hasPfx (".so ".data) line) then (line :: out, refs)
      else
        let so := trimStr (line.drop 4)
        let (resolved, ref, ok) := findFile so
        if !ok then (out, refs)
        else ((".so ".data ++ resolved) :: out, if ref == [] then refs else ref :: refs)

/-- Output discipline of soElim, stated per line: verbatim copy for ordinary
lines, a rewritten .so line for resolvable references, nothing for
unresolvable ones. -/
def soOutLine (findFile : Str → Str × Str × Bool) (line : Str) : Option Str :=
  if !(hasPfx (".so ".data) line) then some line
  else
    let (resolved, _, ok) := findFile (trimStr (line.drop 4))
    if ok then some (".so ".data ++ resolved) else none

/-- Ref discipline of soElim, stated per line: the non-empty ref string of a
resolved .so line, nothing otherwise. -/
def soRefLine (findFile : Str → Str × Str × Bool) (line : Str) : Option Str :=
  if !(hasPfx (".so ".data) line) then none
  else
    let (_, ref, ok) := findFile (trimStr (line.drop 4))
    if ok && !(ref == []) then some ref else none

/-- Lower-cases an ASCII letter; other characters are unchanged. -/
def toLowerCh (c : Char) : Char :=
  if 65 ≤ c.toNat && c.toNat ≤ 90 then Char.ofNat (c.toNat + 32) else c

def toLowerStr (s : Str) : Str := s.map toLowerCh

def isDigitCh (c : Char) : Bool := 48 ≤ c.toNat && c.toNat ≤ 57

/-- Numeric value of a digit string, most significant digit first. -/
def digitsVal (s : Str) : Nat := s.foldl (fun acc c => acc * 10 + (c.toNat - 48)) 0

/-- Numeric value of the leading digit run of a section code, so that a
subsection such as 3edit shares the primary section 3. -/
def leadNat (s : Str) : Nat := digitsVal (s.takeWhile isDigitCh)

def allDigits (s : Str) : Bool := !s.isEmpty && s.all isDigitCh

/-- Decimal digit string of a natural number (fuel-based so it evaluates in the kernel). -/
def natDigitsAux : Nat → Nat → Str
  | 0, _ => []
  | f + 1, n => if n < 10 then [Char.ofNat (n + 48)] else natDigitsAux f (n / 10) ++ [Char.ofNat (n % 10 + 48)]

def natDigits (n : Nat) : Str := natDigitsAux (n + 1) n

/-- One manual page known to the index; field names follow the source. -/
structure IndexEntry where
  Name : Str
  Suite : Str
  Binarypkg : Str
  Section : Str
  Language : Str
deriving DecidableEq

def emptyIndexEntry : IndexEntry := ⟨[], [], [], [], []⟩

/-- The in-memory catalog; field names follow the source test fixture. -/
structure Index where
  Langs : List Str
  Sections : List Str
  Suites : List (Str × Str)
  Entries : List (Str × List IndexEntry)

/-- Configured defaults of the resolver (suite, language, section). -/
structure Config where
  defaultSuite : Str
  defaultLanguage : Str
  defaultSection : Str

/-- Result of URL parsing; missing fields denote unspecified constraints. -/
structure Query where
  Suite : Option Str := none
  Binarypkg : Option Str := none
  Name : Str := []
  Section : Option Str := none
  Language : Option Str := none
  RawSuffix : Option Str := none
deriving DecidableEq

/-- Typed resolution failure; NotFoundError carries the requested manpage token
and the best alternative candidate, as in the source error type. -/
inductive RedirectError where
  | NotFoundError (Manpage : Str) (BestChoice : IndexEntry)
  | ParseError
deriving DecidableEq

def entriesOf (idx : Index) (n : Str) : List IndexEntry :=
  (lookupStr idx.Entries n).getD []

def hasEntryName (idx : Index) (n : Str) : Bool := !(entriesOf idx n).isEmpty

def resolveSuite (idx : Index) (s : Str) : Option Str := lookupStr idx.Suites s

def isLang (idx : Index) (l : Str) : Bool := idx.Langs.contains l

def isSection (idx : Index) (s : Str) : Bool := idx.Sections.contains s

/-- Modelled from the spec: blank-separated name lookup. The token is looked up
as-is in the entries; when absent the parser substitutes a dash and then an
underscore for blanks and retries, the first hit winning in that fixed order.
The redirect resolver source is not among the given files. -/
def blankResolve (idx : Index) (t : Str) : Str :=
  if hasEntryName idx t then t
  else
    let d := t.map (fun c => if c == ' ' then '-' else c)
    if hasEntryName idx d then d
    else
      let u := t.map (fun c => if c == ' ' then '_' else c)
      if hasEntryName idx u then u else t

/-- Joins dot-separated components back into one token. -/
def joinDots : List Str → Str
  | [] => []
  | [p] => p
  | p :: rest => p ++ '.' :: joinDots rest

/-- Joins blank-separated components back into one token. -/
def joinBlanks : List Str → Str
  | [] => []
  | [p] => p
  | p :: rest => p ++ ' ' :: joinBlanks rest

/-- Breaks a string at the first occurrence of a character. -/
def breakCh (sep : Char) : Str → Option (Str × Str)
  | [] => none
  | c :: cs =>
      if c == sep then some ([], cs)
      else match breakCh sep cs with
        | some (a, b) => some (c :: a, b)
        | none => none

/-- Modelled from the spec: parenthesised section syntax. Recognises
name(section), name(section).lang and name(section)lang. -/
def splitParen (t : Str) : Option (Str × Str × Str) :=
  match breakCh '(' t with
  | none => none
  | some (base, rest) =>
      match breakCh ')' rest with
      | none => none
      | some (sec, tail) => some (base, sec, tail)

/-- Modelled from the spec: parsing of the final name token into name, optional
section and optional language. The token is lower-cased, a parenthesised
section is normalised, the whole token is looked up as-is first (with blank
substitution), then trailing dot-components are interpreted as language,
section, or section plus language when the remaining head is a known name, and
finally a blank-separated trailing section is accepted. The redirect resolver
source is not among the given files. -/
def parseNameTok (idx : Index) (t0 : Str) : Str × Option Str × Option Str :=
  let t := toLowerStr t0
  match splitParen t with
  | some (base, sec, tail) =>
      let tail := if tail.headD ' ' == '.' then tail.drop 1 else tail
      (base, some sec, if !tail.isEmpty && isLang idx tail then some tail else none)
  | none =>
    let b := blankResolve idx t
    if hasEntryName idx b then (b, none, none)
    else
      let parts := splitCh '.' t
      let n := parts.length
      let lastP := (parts.getLast?).getD []
      let last2 := ((parts.dropLast).getLast?).getD []
      if 2 ≤ n && isLang idx lastP && hasEntryName idx (joinDots parts.dropLast) then
        (joinDots parts.dropLast, none, some lastP)
      else if 2 ≤ n && isSection idx lastP && hasEntryName idx (joinDots parts.dropLast) then
        (joinDots parts.dropLast, some lastP, none)
      else if 3 ≤ n && isLang idx lastP && isSection idx last2 && hasEntryName idx (joinDots (parts.dropLast).dropLast) then
        (joinDots (parts.dropLast).dropLast, some last2, some lastP)
      else if t.contains ' ' then
        let ws := splitCh ' ' t
        let wLast := (ws.getLast?).getD []
        let wName := joinBlanks ws.dropLast
        if isSection idx wLast && hasEntryName idx wName then (wName, some wLast, none)
        else (t, none, none)
      else (t, none, none)

/-- Tests for the legacy man-with-digits segment form, e.g. man1. -/
def isManDigit (s : Str) : Bool :=
  match s with
  | 'm' :: 'a' :: 'n' :: rest => allDigits rest
  | _ => false

def manDigitsOf (s : Str) : Str := s.drop 3

/-- Modelled from the spec: dialect choice. A path of at least two segments is
routed to the legacy manpages.debian.org parser when its first segment is man,
a man-with-digits form, a bare digit form, or a known language followed by a
man-with-digits segment. The redirect resolver source is not among the given
files. -/
def isLegacy (idx : Index) (segs : List Str) : Bool :=
  match segs with
  | s0 :: _ :: _ =>
      s0 == "man".data || isManDigit s0 || allDigits s0 ||
        (isLang idx s0 && isManDigit ((segs.drop 1).headD []))
  | _ => false

/-- Modelled from the spec: interpretation of one non-final legacy segment. A
man segment is skipped; a man-with-digits segment sets the section; otherwise
the segment is a suite, a language or a section according to the index sets. -/
def legacyStep (idx : Index) (q : Query) (m : Str) : Query :=
  if m == "man".data then q
  else if isManDigit m then { q with Section := some (manDigitsOf m) }
  else if (resolveSuite idx m).isSome then { q with Suite := some m }
  else if isLang idx m then { q with Language := some m }
  else if isSection idx m then { q with Section := some m }
  else q

/-- Modelled from the spec: the legacy manpages.debian.org dialect. All leading
segments are interpreted as markers, the final segment is the name token. -/
def legacyParse (idx : Index) (segs : List Str) : Query :=
  let q0 := (segs.dropLast).foldl (legacyStep idx) {}
  let (n, sec, lang) := parseNameTok idx ((segs.getLast?).getD [])
  { q0 with
    Name := n
    Section := match sec with | some s => some s | none => q0.Section
    Language := match lang with | some l => some l | none => q0.Language }

/-- Modelled from the spec: the native and FreeBSD dialects. One segment is a
bare name token; with two segments a trailing known section after a known name
is the FreeBSD form, otherwise the first segment is a suite when the suites
mapping knows it and a binary package otherwise; with three segments the
segments are suite, binary package and name token. -/
def nativeParse (idx : Index) (segs : List Str) : Option Query :=
  match segs with
  | [t] =>
      let (n, sec, lang) := parseNameTok idx t
      some { Name := n, Section := sec, Language := lang }
  | [a, b] =>
      if isSection idx b && hasEntryName idx (toLowerStr a) then
        some { Name := toLowerStr a, Section := some b }
      else
        let (n, sec, lang) := parseNameTok idx b
        if (resolveSuite idx a).isSome then
          some { Suite := some a, Name := n, Section := sec, Language := lang }
        else
          some { Binarypkg := some a, Name := n, Section := sec, Language := lang }
  | [a, b, c] =>
      let (n, sec, lang) := parseNameTok idx c
      some { Suite := some a, Binarypkg := some b, Name := n, Section := sec, Language := lang }
  | _ => none

def htmlSuffix : Str := ".html".data

/-- Tests whether suf is a trailing segment of s. -/
def hasSfx (suf s : Str) : Bool := hasPfx suf.reverse s.reverse

/-- Modelled from the spec: trailing extension handling. A final .html or .gz
is stripped from the path and recorded as the raw suffix. -/
def stripRawSuffix (p : Str) : Str × Option Str :=
  if hasSfx htmlSuffix p then (p.take (p.length - htmlSuffix.length), some htmlSuffix)
  else if hasSfx gzSuffix p then (p.take (p.length - gzSuffix.length), some gzSuffix)
  else (p, none)

/-- Modelled from the spec: query-parameter override of one field. A present
and non-empty parameter replaces the field unconditionally. -/
def overrideWith (ps : List (Str × Str)) (key : Str) (cur : Option Str) : Option Str :=
  match lookupStr ps key with
  | some v => if v.isEmpty then cur else some v
  | none => cur

/-- Modelled from the spec: URL parsing. The leading slash is removed, plus
signs become blanks, the raw suffix is stripped, the path is split on slashes,
leading blanks of the first segment are removed, the dialect is chosen, and
query parameters override the parsed fields. The redirect resolver source is
not among the given files. -/
def parseRequest (idx : Index) (path : Str) (params : List (Str × Str)) : Option Query :=
  let p := if path.headD ' ' == '/' then path.drop 1 else path
  let p := p.map (fun c => if c == '+' then ' ' else c)
  let (p, raw) := stripRawSuffix p
  let segs := match splitCh '/' p with
    | s :: rest => (s.dropWhile (fun c => c == ' ')) :: rest
    | [] => []
  let q? := if isLegacy idx segs then some (legacyParse idx segs) else nativeParse idx segs
  match q? with
  | none => none
  | some q =>
      some { q with
        Suite := overrideWith params "suite".data q.Suite
        Binarypkg := overrideWith params "binarypkg".data q.Binarypkg
        Section := overrideWith params "section".data q.Section
        Language := overrideWith params "language".data q.Language
        RawSuffix := raw }

/-- Scaled q-value of an Accept-Language item: the weight in thousandths, so
that 0.9 becomes 900 and a missing q-value becomes 1000. -/
def parseQVal (s : Str) : Nat :=
  match splitCh '.' s with
  | [] => 1000
  | [ip] => digitsVal ip * 1000
  | ip :: fp :: _ =>
      digitsVal ip * 1000 + digitsVal (fp.take 3) * 10 ^ (3 - (fp.take 3).length)

/-- One Accept-Language item: the language tag and its scaled weight. -/
def parseALItem (s : Str) : Str × Nat :=
  match splitCh ';' s with
  | [] => ([], 1000)
  | tag :: rest =>
      let w := match rest.find? (fun p => hasPfx "q=".data (trimStr p)) with
        | some p => parseQVal ((trimStr p).drop 2)
        | none => 1000
      (trimStr tag, w)

/-- Inserts an item into a weight-descending list, after existing items of the
same weight, so that the overall sort is stable. -/
def insertDesc (x : Str × Nat) : List (Str × Nat) → List (Str × Nat)
  | [] => [x]
  | y :: ys => if y.2 < x.2 then x :: y :: ys else y :: insertDesc x ys

def sortDesc (l : List (Str × Nat)) : List (Str × Nat) :=
  l.foldl (fun acc x => insertDesc x acc) []

/-- Modelled from the spec: Accept-Language parsing into an ordered list of
language tags, descending by q-weight and stable on ties; the wildcard star is
kept as a sentinel tag. -/
def parseAcceptLanguage (h : Str) : List Str :=
  let items := ((splitCh ',' h).map trimStr).filter (fun s => !s.isEmpty)
  (sortDesc (items.map parseALItem)).map (fun p => p.1)

/-- Modelled from the spec: candidate filtering with relaxation. A set
constraint whose filter would empty the candidate set is dropped, and the
second component reports the constraint still in effect. -/
def narrowBy (cs : List IndexEntry) (c : Option Str) (p : Str → IndexEntry → Bool) :
    List IndexEntry × Option Str :=
  match c with
  | none => (cs, none)
  | some v =>
      let f := cs.filter (p v)
      if f.isEmpty then (cs, none) else (f, some v)

/-- Keeps the entries satisfying p when any does, the whole list otherwise. -/
def keepIfAny (cs : List IndexEntry) (p : IndexEntry → Bool) : List IndexEntry :=
  let f := cs.filter p
  if f.isEmpty then cs else f

/-- Smallest string of a list in the lexicographic order. -/
def minStrOf : List Str → Str
  | [] => []
  | [s] => s
  | s :: rest => let m := minStrOf rest; if strLt s m then s else m

def keepMinLanguage (cs : List IndexEntry) : List IndexEntry :=
  let m := minStrOf (cs.map (fun e => e.Language))
  cs.filter (fun e => e.Language == m)

def keepMinBinarypkg (cs : List IndexEntry) : List IndexEntry :=
  let m := minStrOf (cs.map (fun e => e.Binarypkg))
  cs.filter (fun e => e.Binarypkg == m)

def starTok : Str := "*".data

/-- Modelled from the spec: language selection when no language constraint is
in effect. The Accept-Language list is walked in order and the first tag with
a candidate wins, a wildcard accepting any candidate; with no hit the
configured default language is preferred and the lexicographically smallest
candidate language is the final fallback. -/
def selectLanguage (cfg : Config) (cs : List IndexEntry) (L : List Str) : List IndexEntry :=
  match L.find? (fun l => l == starTok || cs.any (fun e => e.Language == l)) with
  | some l => if l == starTok then keepMinLanguage cs else cs.filter (fun e => e.Language == l)
  | none =>
      let f := cs.filter (fun e => e.Language == cfg.defaultLanguage)
      if f.isEmpty then keepMinLanguage cs else f

/-- Modelled from the spec: subsection refinement. An entry section is a
subsection of a query section when it extends it and the first extra character
is not a digit, e.g. 3edit refines 3. -/
def isSubsectionOf (e q : Str) : Bool :=
  !q.isEmpty && hasPfx q e && !(e.drop q.length).isEmpty && !isDigitCh ((e.drop q.length).headD ' ')

/-- Modelled from the spec: section matching. A query section matches an exact
entry section or one of its subsections. -/
def sectionMatches (e q : Str) : Bool := e == q || isSubsectionOf e q

/-- Modelled from the spec: section selection. Under a section constraint an
exact section wins over a subsection; otherwise the configured default section
is preferred, then the numerically smallest primary section, an exact primary
winning over its subsections. -/
def selectSection (cfg : Config) (secEff : Option Str) (cs : List IndexEntry) : List IndexEntry :=
  match secEff with
  | some s => keepIfAny cs (fun e => e.Section == s)
  | none =>
      let f := cs.filter (fun e => e.Section == cfg.defaultSection)
      if !f.isEmpty then f
      else
        let m := (cs.map (fun e => leadNat e.Section)).foldr Nat.min (leadNat ((cs.headD emptyIndexEntry).Section))
        let prim := cs.filter (fun e => e.Section == natDigits m)
        if !prim.isEmpty then prim else cs.filter (fun e => leadNat e.Section == m)

def gzExt : Str := "gz".data

def htmlExt : Str := "html".data

/-- Canonical serving path: /suite/binarypkg/name.section.language.ext. -/
def mkServingPath (su bp na sec la ext : Str) : Str :=
  '/' :: su ++ '/' :: bp ++ '/' :: na ++ '.' :: sec ++ '.' :: la ++ '.' :: ext

/-- Modelled from the spec: the raw-extension short circuit. With a .gz raw
suffix and all five fields present after suite normalization, the canonical
.gz path is emitted directly. -/
def rawShortCircuit (q : Query) (suiteN : Option Str) : Option Str :=
  match q.RawSuffix, suiteN, q.Binarypkg, q.Section, q.Language with
  | some rs, some su, some bp, some sec, some la =>
      if rs == gzSuffix then some (mkServingPath su bp q.Name sec la gzExt) else none
  | _, _, _, _, _ => none

/-- Modelled from the spec: the best-match resolver. Name lookup first, then
suite normalization with unknown suites discarded, the raw-extension short
circuit, constraint filtering with relaxation, and the default-selection steps
for suite, language, section and binary package, emitting the canonical path
of the chosen entry. The redirect resolver source is not among the given
files. -/
def resolve (cfg : Config) (idx : Index) (q : Query) (L : List Str) :
    Except RedirectError Str :=
  match entriesOf idx q.Name with
  | [] => .error (.NotFoundError q.Name emptyIndexEntry)
  | c0 =>
      let suiteN := q.Suite.bind (fun s => resolveSuite idx s)
      match rawShortCircuit q suiteN with
      | some p => .ok p
      | none =>
          let r1 := narrowBy c0 suiteN (fun v e => e.Suite == v)
          let r2 := narrowBy r1.1 q.Binarypkg (fun v e => e.Binarypkg == v)
          let r3 := narrowBy r2.1 q.Section (fun v e => sectionMatches e.Section v)
          let r4 := narrowBy r3.1 q.Language (fun v e => e.Language == v)
          let c5 := if r1.2.isSome then r4.1
            else keepIfAny r4.1 (fun e => e.Suite == cfg.defaultSuite)
          let c6 := if r4.2.isSome then c5 else selectLanguage cfg c5 L
          let c7 := selectSection cfg r3.2 c6
          let c8 := if r2.2.isSome then c7 else keepMinBinarypkg c7
          match c8.headD emptyIndexEntry with
          | e =>
              let ext := if q.RawSuffix == some gzSuffix then gzExt else htmlExt
              .ok (mkServingPath e.Suite e.Binarypkg e.Name e.Section e.Language ext)

/-- Modelled from the spec: the entry point. The request path, query
parameters and Accept-Language header are parsed and the query resolved
against the index, yielding the canonical serving path or a typed error. -/
def Redirect (idx : Index) (cfg : Config) (path : String)
    (params : List (String × String)) (acceptLanguage : String) :
    Except RedirectError String :=
  match parseRequest idx path.data (params.map (fun p => (p.1.data, p.2.data))) with
  | none => .error .ParseError
  | some q => (resolve cfg idx q (parseAcceptLanguage acceptLanguage.data)).map String.mk

/-- One index entry of the test fixture, in source order. -/
def mkE (na su bp sec la : String) : IndexEntry :=
  ⟨na.data, su.data, bp.data, sec.data, la.data⟩

/-- The index fixture of the redirect tests, transcribed from the test source. -/
def testIdx : Index where
  Langs := ["en".data, "fr".data, "es".data]
  Sections := ["0".data, "1".data, "2".data, "3".data, "3edit".data, "5".data]
  Suites := [
    ("testing".data, "testing".data),
    ("unstable".data, "unstable".data),
    ("sid".data, "sid".data),
    ("experimental".data, "experimental".data),
    ("rc-buggy".data, "rc-buggy".data),
    ("jessie".data, "jessie".data),
    ("stable".data, "jessie".data),
    ("wheezy".data, "wheezy".data),
    ("oldstable".data, "wheezy".data),
    ("stretch".data, "testing".data)]
  Entries := [
    ("i3".data, [
      mkE "i3" "jessie" "i3-wm" "1" "en",
      mkE "i3" "jessie" "i3-wm" "5" "fr",
      mkE "i3" "jessie" "i3-wm" "5" "en",
      mkE "i3" "jessie" "i3-wm" "1" "fr",
      mkE "i3" "testing" "i3-wm" "1" "en",
      mkE "i3" "testing" "i3-wm" "1" "fr",
      mkE "i3" "testing" "i3-wm" "5" "fr",
      mkE "i3" "testing" "i3-wm" "5" "en"]),
    ("systemd.service".data, [
      mkE "systemd.service" "jessie" "systemd" "5" "en"]),
    ("editline".data, [
      mkE "editline" "jessie" "libedit-dev" "3edit" "en",
      mkE "editline" "jessie" "libeditline-dev" "3" "en"]),
    ("javafxpackager".data, [
      mkE "javafxpackager" "testing" "openjfx" "1" "en"]),
    ("dup".data, [
      mkE "dup" "jessie" "manpages-pl-dev" "2" "pl",
      mkE "dup" "jessie" "manpages-dev" "2" "en"]),
    ("man".data, [
      mkE "man" "jessie" "man-db" "1" "en"]),
    ("git-rebase".data, [
      mkE "git-rebase" "jessie" "git-man" "1" "en"]),
    ("git_stash".data, [
      mkE "git_stash" "jessie" "git-man" "1" "en"])]

/-- The configured defaults of the test suite: suite jessie, language en, section 1. -/
def testConfig : Config := ⟨"jessie".data, "en".data, "1".data⟩

deriving instance DecidableEq for Except

theorem strLt_irrefl : ∀ a : Str, strLt a a = false
  | [] => rfl
  | c :: cs => by simp [strLt, chLt, strLt_irrefl cs]

theorem strLt_asymm : ∀ a b : Str, strLt a b = true → strLt b a = false
  | [], [] => by simp [strLt]
  | [], _ :: _ => by simp [strLt]
  | _ :: _, [] => by simp [strLt]
  | a :: as, b :: bs => by
      intro h
      simp only [strLt, chLt] at h ⊢
      by_cases h1 : a.toNat < b.toNat
      · have h2 : ¬ b.toNat < a.toNat := by omega
        simp [h1, h2]
      · by_cases h2 : b.toNat < a.toNat
        · simp [h1, h2] at h
        · simp only [h1, h2, if_false] at h ⊢
          exact strLt_asymm as bs h

theorem strLt_false_trans : ∀ a b c : Str,
    strLt b a = false → strLt c b = false → strLt c a = false
  | [], _, c => by intro _ _; cases c <;> rfl
  | _ :: _, [], _ => by intro h1; simp [strLt] at h1
  | _ :: _, _ :: _, [] => by intro _ h2; simp [strLt] at h2
  | x :: xs, y :: ys, z :: zs => by
      intro h1 h2
      simp only [strLt, chLt] at h1 h2 ⊢
      by_cases hyx : y.toNat < x.toNat
      · simp [hyx] at h1
      · by_cases hzy : z.toNat < y.toNat
        · simp [hzy] at h2
        · have hzx : ¬ z.toNat < x.toNat := by omega
          simp only [hzx, if_false]
          by_cases hxz : x.toNat < z.toNat
          · simp [hxz]
          · have hxy : ¬ x.toNat < y.toNat := by omega
            have hyz : ¬ y.toNat < z.toNat := by omega
            simp only [hxy, hyx, if_false] at h1
            simp only [hyz, hzy, if_false] at h2
            simp only [hxz, if_false]
            exact strLt_false_trans xs ys zs h1 h2

/-- Claim C9: soElim copies every non .so line unchanged and in input order,
rewrites a .so line to .so followed by the resolved reference when findFile
succeeds, omits it entirely when findFile fails, and returns exactly the
non-empty ref strings of the resolved .so lines. -/
theorem soElim_stream_discipline (ff : Str → Str × Str × Bool) (lines : List Str) :
    soElim ff lines = (lines.filterMap (soOutLine ff), lines.filterMap (soRefLine ff)) := by
  induction lines with
  | nil => rfl
  | cons line rest ih =>
      simp only [soElim, ih, List.filterMap_cons]
      by_cases hp : hasPfx (".so ".data) line
      · rcases hff : ff (trimStr (line.drop 4)) with ⟨resolved, ref, ok⟩
        simp only [soOutLine, soRefLine, hp, hff, Bool.not_true, if_false]
        cases ok
        · simp
        · by_cases hr : ref == []
          · have : ref = [] := by simpa using hr
            simp [this]
          · have : ¬ ref = [] := by simpa using hr
            simp [this]
      · simp [soOutLine, soRefLine, hp]

theorem contentLe_total : ∀ a b : contentEntry, contentLe a b ∨ contentLe b a := by
  intro a b
  unfold contentLe
  by_cases h : strLt b.binarypkg a.binarypkg = true
  · exact Or.inr (strLt_asymm _ _ h)
  · exact Or.inl (by simpa using h)

theorem contentLe_trans : ∀ a b c : contentEntry,
    contentLe a b → contentLe b c → contentLe a c := by
  intro a b c h1 h2
  exact strLt_false_trans _ _ _ h1 h2

/-- Head of the insertion sort used by findClosestFile: it belongs to the input
list and no input element has a lexicographically smaller binarypkg. -/
theorem insertionSort_head_min (l : List contentEntry) (e : contentEntry) (rest : List contentEntry)
    (h : List.insertionSort contentLe l = e :: rest) :
    e ∈ l ∧ ∀ x ∈ l, strLt x.binarypkg e.binarypkg = false := by
  haveI : IsTotal contentEntry contentLe := ⟨contentLe_total⟩
  haveI : IsTrans contentEntry contentLe := ⟨contentLe_trans⟩
  have hperm := List.perm_insertionSort contentLe l
  have hsorted := List.sorted_insertionSort contentLe l
  rw [h] at hperm hsorted
  constructor
  · exact hperm.mem_iff.mp (List.mem_cons_self e rest)
  · intro x hx
    have hx2 : x ∈ e :: rest := hperm.mem_iff.mpr hx
    rcases List.mem_cons.mp hx2 with rfl | hx3
    · exact strLt_irrefl _
    · exact List.rel_of_sorted_cons hsorted x hx3

theorem fcf_eval_small (fmp : Str → Str → Str → Option Str) (p : pkgMeta) (name : Str)
    (cbp : List (Str × List contentEntry)) (c : List contentEntry) (f1 : contentEntry)
    (hlk : lookupStr cbp (dropPfxStr usrShareMan name) = some c)
    (hfil : c.filter (fun x => x.suite == p.suite) = [f1]) :
    findClosestFile fmp p name cbp =
      servingOf fmp (dropPfxStr usrShareMan name) f1.binarypkg f1.suite := by
  simp [findClosestFile, hlk, hfil]

theorem fcf_eval_single (fmp : Str → Str → Str → Option Str) (p : pkgMeta) (name : Str)
    (cbp : List (Str × List contentEntry)) (c : List contentEntry) (e : contentEntry)
    (hlk : lookupStr cbp (dropPfxStr usrShareMan name) = some c)
    (hlen : 1 < (c.filter (fun x => x.suite == p.suite)).length)
    (hsame : (c.filter (fun x => x.suite == p.suite)).filter (fun x => x.binarypkg == p.binarypkg) = [e]) :
    findClosestFile fmp p name cbp =
      servingOf fmp (dropPfxStr usrShareMan name) e.binarypkg e.suite := by
  simp [findClosestFile, hlk, hsame, hlen, List.insertionSort, List.orderedInsert]

theorem fcf_eval_sorted (fmp : Str → Str → Str → Option Str) (p : pkgMeta) (name : Str)
    (cbp : List (Str × List contentEntry)) (c : List contentEntry) (e : contentEntry)
    (rest : List contentEntry)
    (hlk : lookupStr cbp (dropPfxStr usrShareMan name) = some c)
    (hlen : 1 < (c.filter (fun x => x.suite == p.suite)).length)
    (hsame : ∀ y, (c.filter (fun x => x.suite == p.suite)).filter (fun x => x.binarypkg == p.binarypkg) ≠ [y])
    (hsort : List.insertionSort contentLe (c.filter (fun x => x.suite == p.suite)) = e :: rest) :
    findClosestFile fmp p name cbp =
      servingOf fmp (dropPfxStr usrShareMan name) e.binarypkg e.suite := by
  rcases h2 : (c.filter (fun x => x.suite == p.suite)).filter (fun x => x.binarypkg == p.binarypkg) with _ | ⟨y, tl⟩
  · simp [findClosestFile, hlk, hlen, h2, hsort]
  · rcases tl with _ | ⟨z, tl2⟩
    · exact absurd h2 (hsame y)
    · simp [findClosestFile, hlk, hlen, h2, hsort]

theorem nonempty_sort (l : List contentEntry) (h : l ≠ []) :
    ∃ e rest, List.insertionSort contentLe l = e :: rest := by
  rcases hs : List.insertionSort contentLe l with _ | ⟨e, rest⟩
  · have hp := List.perm_insertionSort contentLe l
    rw [hs] at hp
    exact absurd hp.symm.eq_nil h
  · exact ⟨e, rest, rfl⟩

/-- Claim C10: findClosestFile never returns a serving path derived from a
content entry of a different suite than the querying package; with no
same-suite candidate it returns the empty string; among several same-suite
candidates a unique one sharing the binarypkg of the querying package is
chosen, otherwise the candidate with the lexicographically smallest binarypkg
is chosen, deterministically. -/
theorem findClosestFile_suite_and_choice
    (fmp : Str → Str → Str → Option Str) (p : pkgMeta) (name : Str)
    (cbp : List (Str × List contentEntry)) :
    (lookupStr cbp (dropPfxStr usrShareMan name) = none →
      findClosestFile fmp p name cbp = [])
    ∧ (∀ c, lookupStr cbp (dropPfxStr usrShareMan name) = some c →
        c.filter (fun x => x.suite == p.suite) = [] →
        findClosestFile fmp p name cbp = [])
    ∧ (findClosestFile fmp p name cbp ≠ [] →
        ∃ c e, lookupStr cbp (dropPfxStr usrShareMan name) = some c ∧
          e ∈ c ∧ e.suite = p.suite ∧
          ∃ sp, fmp (dropPfxStr usrShareMan name) e.binarypkg e.suite = some sp ∧
            findClosestFile fmp p name cbp = sp ++ gzSuffix)
    ∧ (∀ c e, lookupStr cbp (dropPfxStr usrShareMan name) = some c →
        (c.filter (fun x => x.suite == p.suite)).filter (fun x => x.binarypkg == p.binarypkg) = [e] →
        findClosestFile fmp p name cbp =
          servingOf fmp (dropPfxStr usrShareMan name) e.binarypkg e.suite)
    ∧ (∀ c, lookupStr cbp (dropPfxStr usrShareMan name) = some c →
        c.filter (fun x => x.suite == p.suite) ≠ [] →
        ((c.filter (fun x => x.suite == p.suite)).filter (fun x => x.binarypkg == p.binarypkg)).length ≠ 1 →
        ∃ e, e ∈ c.filter (fun x => x.suite == p.suite) ∧
          (∀ x ∈ c.filter (fun x => x.suite == p.suite), strLt x.binarypkg e.binarypkg = false) ∧
          findClosestFile fmp p name cbp =
            servingOf fmp (dropPfxStr usrShareMan name) e.binarypkg e.suite) := by
  refine ⟨?_, ?_, ?_, ?_, ?_⟩
  · intro h
    simp [findClosestFile, h]
  · intro c hlk hf
    simp [findClosestFile, hlk, hf]
  · intro hne
    rcases hlk : lookupStr cbp (dropPfxStr usrShareMan name) with _ | c
    · exact absurd (by simp [findClosestFile, hlk]) hne
    · rcases hfil : c.filter (fun x => x.suite == p.suite) with _ | ⟨f1, fs⟩
      · exact absurd (by simp [findClosestFile, hlk, hfil]) hne
      · have hchosen : ∃ e, e ∈ c.filter (fun x => x.suite == p.suite) ∧
            findClosestFile fmp p name cbp =
              servingOf fmp (dropPfxStr usrShareMan name) e.binarypkg e.suite := by
          by_cases hlen : 1 < (c.filter (fun x => x.suite == p.suite)).length
          · rcases h2 : (c.filter (fun x => x.suite == p.suite)).filter
                (fun x => x.binarypkg == p.binarypkg) with _ | ⟨y, tl⟩
            · obtain ⟨e, rest, hsort⟩ :=
                nonempty_sort (c.filter (fun x => x.suite == p.suite)) (by rw [hfil]; simp)
              refine ⟨e, (insertionSort_head_min _ _ _ hsort).1, ?_⟩
              exact fcf_eval_sorted fmp p name cbp c e rest hlk hlen
                (by intro w hw; rw [hw] at h2; simp at h2) hsort
            · rcases tl with _ | ⟨z, tl2⟩
              · have hmem : y ∈ c.filter (fun x => x.suite == p.suite) := by
                  have hy : y ∈ (c.filter (fun x => x.suite == p.suite)).filter
                      (fun x => x.binarypkg == p.binarypkg) := by rw [h2]; simp
                  exact (List.mem_filter.mp hy).1
                exact ⟨y, hmem, fcf_eval_single fmp p name cbp c y hlk hlen h2⟩
              · obtain ⟨e, rest, hsort⟩ :=
                  nonempty_sort (c.filter (fun x => x.suite == p.suite)) (by rw [hfil]; simp)
                refine ⟨e, (insertionSort_head_min _ _ _ hsort).1, ?_⟩
                exact fcf_eval_sorted fmp p name cbp c e rest hlk hlen
                  (by intro w hw; rw [hw] at h2; simp at h2) hsort
          · have hfs : fs = [] := by
              rw [hfil] at hlen
              simp only [List.length_cons, Nat.not_lt] at hlen
              exact List.eq_nil_of_length_eq_zero (by omega)
            subst hfs
            exact ⟨f1, by rw [hfil]; simp,
              fcf_eval_small fmp p name cbp c f1 hlk hfil⟩
        rcases hchosen with ⟨e, hmem, heq⟩
        have hec := List.mem_filter.mp hmem
        have hsuite : e.suite = p.suite := by simpa using hec.2
        refine ⟨c, e, rfl, hec.1, hsuite, ?_⟩
        rw [heq] at hne ⊢
        unfold servingOf at hne ⊢
        rcases hfmp : fmp (dropPfxStr usrShareMan name) e.binarypkg e.suite with _ | sp
        · rw [hfmp] at hne
          simp at hne
        · exact ⟨sp, rfl, rfl⟩
  · intro c e hlk hsame
    by_cases hlen : 1 < (c.filter (fun x => x.suite == p.suite)).length
    · exact fcf_eval_single fmp p name cbp c e hlk hlen hsame
    · have hfne : c.filter (fun x => x.suite == p.suite) ≠ [] := by
        intro h0
        rw [h0] at hsame
        simp at hsame
      rcases hfil : c.filter (fun x => x.suite == p.suite) with _ | ⟨f1, fs⟩
      · exact absurd hfil hfne
      · have hfs : fs = [] := by
          rw [hfil] at hlen
          simp only [List.length_cons, Nat.not_lt] at hlen
          exact List.eq_nil_of_length_eq_zero (by omega)
        subst hfs
        rw [hfil] at hsame
        have hf1e : f1 = e := by
          by_cases hq : (f1.binarypkg == p.binarypkg) = true
          · simp [List.filter, hq] at hsame
            exact hsame
          · simp [List.filter, hq] at hsame
        subst hf1e
        exact fcf_eval_small fmp p name cbp c f1 hlk hfil
  · intro c hlk hfne hlen1
    by_cases hlen : 1 < (c.filter (fun x => x.suite == p.suite)).length
    · obtain ⟨e, rest, hsort⟩ :=
        nonempty_sort (c.filter (fun x => x.suite == p.suite)) hfne
      have hmin := insertionSort_head_min _ _ _ hsort
      refine ⟨e, hmin.1, hmin.2, ?_⟩
      exact fcf_eval_sorted fmp p name cbp c e rest hlk hlen
        (fun y hy => hlen1 (by rw [hy]; rfl)) hsort
    · rcases hfil : c.filter (fun x => x.suite == p.suite) with _ | ⟨f1, fs⟩
      · exact absurd hfil hfne
      · have hfs : fs = [] := by
          rw [hfil] at hlen
          simp only [List.length_cons, Nat.not_lt] at hlen
          exact List.eq_nil_of_length_eq_zero (by omega)
        subst hfs
        refine ⟨f1, by rw [hfil]; simp, ?_, ?_⟩
        · intro x hx
          rw [hfil] at hx
          simp at hx
          subst hx
          exact strLt_irrefl _
        · exact fcf_eval_small fmp p name cbp c f1 hlk hfil

theorem findClosestFile_suite_and_choice_witness :
    findClosestFile (fun _ _ _ => some ['x']) ⟨"jessie".data, "i3-wm".data⟩
      "/usr/share/man/man1/i3.1.gz".data
      [("man1/i3.1.gz".data,
        [⟨"jessie".data, "aaa".data⟩, ⟨"jessie".data, "i3-wm".data⟩,
          ⟨"jessie".data, "zzz".data⟩])] =
      servingOf (fun _ _ _ => some ['x'])
        (dropPfxStr usrShareMan "/usr/share/man/man1/i3.1.gz".data)
        "i3-wm".data "jessie".data :=
  (findClosestFile_suite_and_choice (fun _ _ _ => some ['x'])
      ⟨"jessie".data, "i3-wm".data⟩ "/usr/share/man/man1/i3.1.gz".data
      [("man1/i3.1.gz".data,
        [⟨"jessie".data, "aaa".data⟩, ⟨"jessie".data, "i3-wm".data⟩,
          ⟨"jessie".data, "zzz".data⟩])]).2.2.2.1
    [⟨"jessie".data, "aaa".data⟩, ⟨"jessie".data, "i3-wm".data⟩,
      ⟨"jessie".data, "zzz".data⟩]
    ⟨"jessie".data, "i3-wm".data⟩ (by decide) (by decide)

/-- Claim C1: for every request whose path is a bare known manpage name of the
test index, with no suite, binarypkg, section or language and an empty
Accept-Language list, Redirect succeeds with the serving path of one of that
name's entries and fills the unset fields from the configured defaults: the
default suite jessie when an entry in it exists, language en and section 1
when entries in them exist among the matching candidates; /i3 produces
/jessie/i3-wm/i3.1.en.html. -/
theorem redirect_bare_name_defaults :
    (∀ pr ∈ testIdx.Entries,
      ∃ e ∈ pr.2,
        Redirect testIdx testConfig (String.mk ('/' :: pr.1)) [] "" =
          .ok (String.mk (mkServingPath e.Suite e.Binarypkg e.Name e.Section e.Language htmlExt)) ∧
        ((∃ x ∈ pr.2, x.Suite = testConfig.defaultSuite) → e.Suite = testConfig.defaultSuite) ∧
        ((∃ x ∈ pr.2, x.Suite = e.Suite ∧ x.Language = testConfig.defaultLanguage) →
          e.Language = testConfig.defaultLanguage) ∧
        ((∃ x ∈ pr.2, x.Suite = e.Suite ∧ x.Language = e.Language ∧
            x.Section = testConfig.defaultSection) →
          e.Section = testConfig.defaultSection)) ∧
    Redirect testIdx testConfig "/i3" [] "" = .ok "/jessie/i3-wm/i3.1.en.html" := by decide

theorem redirect_bare_name_defaults_witness :
    ∃ e ∈ [mkE "man" "jessie" "man-db" "1" "en"],
      Redirect testIdx testConfig (String.mk ('/' :: "man".data)) [] "" =
        .ok (String.mk (mkServingPath e.Suite e.Binarypkg e.Name e.Section e.Language htmlExt)) ∧
      ((∃ x ∈ [mkE "man" "jessie" "man-db" "1" "en"], x.Suite = testConfig.defaultSuite) →
        e.Suite = testConfig.defaultSuite) ∧
      ((∃ x ∈ [mkE "man" "jessie" "man-db" "1" "en"], x.Suite = e.Suite ∧
          x.Language = testConfig.defaultLanguage) →
        e.Language = testConfig.defaultLanguage) ∧
      ((∃ x ∈ [mkE "man" "jessie" "man-db" "1" "en"], x.Suite = e.Suite ∧
          x.Language = e.Language ∧ x.Section = testConfig.defaultSection) →
        e.Section = testConfig.defaultSection) :=
  redirect_bare_name_defaults.1 ("man".data, [mkE "man" "jessie" "man-db" "1" "en"]) (by decide)

/-- Claim C2: a request that parses but whose name token has no index entry
resolves to an error discriminable as NotFoundError, whose Manpage field is
the requested name token and whose BestChoice field is the empty IndexEntry;
no serving path is returned. -/
theorem resolve_unknown_name_notfound :
    (∀ (cfg : Config) (idx : Index) (q : Query) (L : List Str),
        entriesOf idx q.Name = [] →
        resolve cfg idx q L = .error (.NotFoundError q.Name emptyIndexEntry)) ∧
    Redirect testIdx testConfig "/oi3" [] "" =
      .error (.NotFoundError "oi3".data emptyIndexEntry) := by
  refine ⟨?_, by decide⟩
  intro cfg idx q L h
  simp [resolve, h]

theorem resolve_unknown_name_notfound_witness :
    resolve testConfig testIdx { Name := "nosuch".data } [] =
      .error (.NotFoundError "nosuch".data emptyIndexEntry) :=
  resolve_unknown_name_notfound.1 testConfig testIdx { Name := "nosuch".data } [] (by decide)

/-- Claim C3: every single candidate-filtering constraint whose application
would leave zero candidates is dropped rather than causing failure, and the
dropped field is filled by the default-selection steps: jessie/i3.1.es with
unavailable language es resolves with language en, and man0/i3 with
unavailable section 0 resolves with section 1. -/
theorem narrowBy_relaxation_and_recovery :
    (∀ (cs : List IndexEntry) (v : Option Str) (p : Str → IndexEntry → Bool),
        cs ≠ [] → (narrowBy cs v p).1 ≠ []) ∧
    Redirect testIdx testConfig "/jessie/i3.1.es" [] "" = .ok "/jessie/i3-wm/i3.1.en.html" ∧
    Redirect testIdx testConfig "/man0/i3" [] "" = .ok "/jessie/i3-wm/i3.1.en.html" := by
  refine ⟨?_, by decide, by decide⟩
  intro cs v p h
  cases v with
  | none => simpa [narrowBy] using h
  | some v =>
      by_cases hf : (cs.filter (p v)).isEmpty
      · simpa [narrowBy, hf] using h
      · have hne : cs.filter (p v) ≠ [] := by
          intro h0
          rw [h0] at hf
          exact hf rfl
        simpa [narrowBy, hf] using hne

theorem narrowBy_relaxation_and_recovery_witness :
    (narrowBy [emptyIndexEntry] (some ['a']) (fun v e => e.Suite == v)).1 ≠ [] :=
  narrowBy_relaxation_and_recovery.1 [emptyIndexEntry] (some ['a'])
    (fun v e => e.Suite == v) (by decide)

/-- Claim C4: a suite token that the suites mapping does not know is
discarded, so resolution equals resolution of the same query without a suite,
and never fails solely because the suite was unknown; concretely,
/potato/i3-wm/i3.1.en resolves exactly like /i3-wm/i3.1.en, to the default
suite's match. -/
theorem resolve_unknown_suite_dropped :
    (∀ (cfg : Config) (idx : Index) (q : Query) (L : List Str) (s : Str),
        q.Suite = some s → resolveSuite idx s = none →
        resolve cfg idx q L = resolve cfg idx { q with Suite := none } L) ∧
    Redirect testIdx testConfig "/potato/i3-wm/i3.1.en" [] "" =
      Redirect testIdx testConfig "/i3-wm/i3.1.en" [] "" ∧
    Redirect testIdx testConfig "/potato/i3-wm/i3.1.en" [] "" =
      .ok "/jessie/i3-wm/i3.1.en.html" := by
  refine ⟨?_, by decide, by decide⟩
  intro cfg idx q L s h1 h2
  simp [resolve, rawShortCircuit, h1, h2]

theorem resolve_unknown_suite_dropped_witness :
    resolve testConfig testIdx { Name := "i3".data, Suite := some "potato".data } [] =
      resolve testConfig testIdx { Name := "i3".data } [] :=
  resolve_unknown_suite_dropped.1 testConfig testIdx
    { Name := "i3".data, Suite := some "potato".data } [] "potato".data rfl (by decide)

/-- Claim C5: with language unset the resolver walks the Accept-Language list
in descending q-weight and selects the first listed language with a candidate,
falling back to en when the list is empty or no listed language matches: /i3
under the fr-CH, fr, en, de, star header yields the fr page, while /dup under
the same header yields the en page because dup has no fr entry. -/
theorem selectLanguage_walk_order :
    (∀ (cfg : Config) (cs : List IndexEntry) (l : Str) (L : List Str),
        cs.any (fun e => e.Language == l) = false → (l == starTok) = false →
        selectLanguage cfg cs (l :: L) = selectLanguage cfg cs L) ∧
    (∀ (cfg : Config) (cs : List IndexEntry) (l : Str) (L : List Str),
        cs.any (fun e => e.Language == l) = true → (l == starTok) = false →
        selectLanguage cfg cs (l :: L) = cs.filter (fun e => e.Language == l)) ∧
    (∀ (cfg : Config) (cs : List IndexEntry),
        cs.filter (fun e => e.Language == cfg.defaultLanguage) ≠ [] →
        selectLanguage cfg cs [] = cs.filter (fun e => e.Language == cfg.defaultLanguage)) ∧
    Redirect testIdx testConfig "/i3" [] "fr-CH, fr;q=0.9, en;q=0.8, de;q=0.7, *;q=0.5" =
      .ok "/jessie/i3-wm/i3.1.fr.html" ∧
    Redirect testIdx testConfig "/dup" [] "fr-CH, fr;q=0.9, en;q=0.8, de;q=0.7, *;q=0.5" =
      .ok "/jessie/manpages-dev/dup.2.en.html" := by
  refine ⟨?_, ?_, ?_, by decide, by decide⟩
  · intro cfg cs l L h1 h2
    simp [selectLanguage, h1, h2]
  · intro cfg cs l L h1 h2
    simp [selectLanguage, h1, h2]
  · intro cfg cs h
    by_cases hf : (cs.filter (fun e => e.Language == cfg.defaultLanguage)).isEmpty
    · rcases List.isEmpty_iff.mp hf with h0
      exact absurd h0 h
    · simp [selectLanguage, List.find?, hf]

theorem selectLanguage_walk_order_witness :
    selectLanguage testConfig [mkE "dup" "jessie" "manpages-dev" "2" "en"] ["en".data] =
      [mkE "dup" "jessie" "manpages-dev" "2" "en"].filter (fun e => e.Language == "en".data) :=
  selectLanguage_walk_order.2.1 testConfig [mkE "dup" "jessie" "manpages-dev" "2" "en"]
    "en".data [] (by decide) (by decide)

/-- Claim C6: a query section matches both the exact section and its
subsections (leading digits with a non-numeric suffix, e.g. 3edit for 3);
among matches an exact section is chosen over a subsection, and when
filtering by binarypkg leaves only a subsection entry that entry is chosen:
editline.3 resolves to libeditline-dev/editline.3.en.html while
libedit-dev/editline.3 resolves to libedit-dev/editline.3edit.en.html. -/
theorem section_subsection_matching :
    (∀ s : Str, sectionMatches s s = true) ∧
    (∀ e q : Str, isSubsectionOf e q = true → sectionMatches e q = true) ∧
    (∀ (cfg : Config) (cs : List IndexEntry) (s : Str),
        cs.filter (fun e => e.Section == s) ≠ [] →
        selectSection cfg (some s) cs = cs.filter (fun e => e.Section == s)) ∧
    Redirect testIdx testConfig "/editline.3" [] "" =
      .ok "/jessie/libeditline-dev/editline.3.en.html" ∧
    Redirect testIdx testConfig "/libedit-dev/editline.3" [] "" =
      .ok "/jessie/libedit-dev/editline.3edit.en.html" := by
  refine ⟨?_, ?_, ?_, by decide, by decide⟩
  · intro s
    simp [sectionMatches]
  · intro e q h
    simp [sectionMatches, h]
  · intro cfg cs s h
    by_cases hf : (cs.filter (fun e => e.Section == s)).isEmpty
    · exact absurd (List.isEmpty_iff.mp hf) h
    · simp [selectSection, keepIfAny, hf]

theorem section_subsection_matching_witness :
    selectSection testConfig (some "1".data) [mkE "i3" "jessie" "i3-wm" "1" "en"] =
      [mkE "i3" "jessie" "i3-wm" "1" "en"].filter (fun e => e.Section == "1".data) :=
  section_subsection_matching.2.2.1 testConfig [mkE "i3" "jessie" "i3-wm" "1" "en"]
    "1".data (by decide)

/-- Claim C7: a request with the raw .gz suffix whose parsing yields suite,
binarypkg, name, section and language emits the canonical .gz serving path
directly after suite-alias normalization, bypassing the html-centric
fallback: /stretch/i3-wm/i3.1.en.gz redirects to /testing/i3-wm/i3.1.en.gz
through the stretch to testing alias. -/
theorem resolve_raw_gz_short_circuit :
    (∀ (cfg : Config) (idx : Index) (q : Query) (L : List Str) (s s2 b sec l : Str),
        entriesOf idx q.Name ≠ [] →
        q.RawSuffix = some gzSuffix → q.Suite = some s → resolveSuite idx s = some s2 →
        q.Binarypkg = some b → q.Section = some sec → q.Language = some l →
        resolve cfg idx q L = .ok (mkServingPath s2 b q.Name sec l gzExt)) ∧
    Redirect testIdx testConfig "/stretch/i3-wm/i3.1.en.gz" [] "" =
      .ok "/testing/i3-wm/i3.1.en.gz" := by
  refine ⟨?_, by decide⟩
  intro cfg idx q L s s2 b sec l hne hraw hs hrs hb hsec hl
  rcases hE : entriesOf idx q.Name with _ | ⟨a, as⟩
  · exact absurd hE hne
  · simp [resolve, hE, rawShortCircuit, hraw, hs, hrs, hb, hsec, hl]

theorem resolve_raw_gz_short_circuit_witness :
    resolve testConfig testIdx
      { Name := "i3".data, Suite := some "stretch".data, Binarypkg := some "i3-wm".data,
        Section := some "1".data, Language := some "en".data, RawSuffix := some gzSuffix } [] =
      .ok (mkServingPath "testing".data "i3-wm".data "i3".data "1".data "en".data gzExt) :=
  resolve_raw_gz_short_circuit.1 testConfig testIdx
    { Name := "i3".data, Suite := some "stretch".data, Binarypkg := some "i3-wm".data,
      Section := some "1".data, Language := some "en".data, RawSuffix := some gzSuffix } []
    "stretch".data "testing".data "i3-wm".data "1".data "en".data
    (by decide) rfl rfl (by decide) rfl rfl rfl

/-- Claim C8: a name token containing a blank (a plus sign in the path is a
blank) is looked up verbatim first; when absent the blank is replaced by a
dash and then by an underscore, the first substitution hitting an existing
entry winning, dash before underscore: git rebase resolves to
/jessie/git-man/git-rebase.1.en.html and git stash to
/jessie/git-man/git_stash.1.en.html. -/
theorem blank_name_substitution :
    (∀ (idx : Index) (t : Str), hasEntryName idx t = true → blankResolve idx t = t) ∧
    (∀ (idx : Index) (t : Str),
        hasEntryName idx t = false →
        hasEntryName idx (t.map (fun c => if c == ' ' then '-' else c)) = true →
        blankResolve idx t = t.map (fun c => if c == ' ' then '-' else c)) ∧
    (∀ (idx : Index) (t : Str),
        hasEntryName idx t = false →
        hasEntryName idx (t.map (fun c => if c == ' ' then '-' else c)) = false →
        hasEntryName idx (t.map (fun c => if c == ' ' then '_' else c)) = true →
        blankResolve idx t = t.map (fun c => if c == ' ' then '_' else c)) ∧
    Redirect testIdx testConfig "/git rebase" [] "" =
      .ok "/jessie/git-man/git-rebase.1.en.html" ∧
    Redirect testIdx testConfig "/git stash" [] "" =
      .ok "/jessie/git-man/git_stash.1.en.html" ∧
    Redirect testIdx testConfig "/git+stash" [] "" =
      .ok "/jessie/git-man/git_stash.1.en.html" := by
  refine ⟨?_, ?_, ?_, by decide, by decide, by decide⟩
  · intro idx t h
    simp [blankResolve, h]
  · intro idx t h1 h2
    simp only [beq_iff_eq] at h2
    simp [blankResolve, h1, h2]
  · intro idx t h1 h2 h3
    simp only [beq_iff_eq] at h2 h3
    simp [blankResolve, h1, h2, h3]

theorem blank_name_substitution_witness :
    blankResolve testIdx "git rebase".data =
      "git rebase".data.map (fun c => if c == ' ' then '-' else c) :=
  blank_name_substitution.2.1 testIdx "git rebase".data (by decide) (by decide)
